import Mathlib

/-! Shallow embedding of `scripts/update_data.py` from the Recorder repository.

File contents are modelled as Lean strings; a value of type `Option String`
models the result of reading a file, with `none` standing in for a read that
raises an exception (the Python code catches every exception from `open` and
`read`).  The directory walk is modelled as the list of discovered files in
enumeration order, each given by its path relative to the content root
(POSIX separators, as produced by `os.path.relpath` under `os.walk`) and its
content.  The regular expressions of the script are translated into explicit
scanning functions over `List Char`, following the semantics of the Python
`re` module for the concrete patterns used (`^X:\s*(\d+)` with `re.MULTILINE`,
`T:(.*?)$` with `re.MULTILINE`, `^#\s+(.*?)$` with `re.MULTILINE`), restricted
to ASCII whitespace and digits. -/

namespace UpdateData

/-- ASCII whitespace as matched by the Python regex class `\s` and stripped by
`str.strip`: space, tab, newline, carriage return, vertical tab, form feed. -/
def pyIsSpace (c : Char) : Bool :=
  c == ' ' || c == '\t' || c == '\n' || c == '\r' || c == '\x0b' || c == '\x0c'

/-- The characters of a line up to (excluding) the next newline: the text
matched by a lazy group `(.*?)$` in `re.MULTILINE` mode, which cannot cross a
newline and stops at the first position where `$` matches. -/
def takeToEol (cs : List Char) : List Char :=
  cs.takeWhile (fun c => c != '\n')

/-- Python `str.strip()`: remove leading and trailing whitespace. -/
def pyStrip (cs : List Char) : List Char :=
  ((cs.dropWhile pyIsSpace).reverse.dropWhile pyIsSpace).reverse

/-- Model of `os.path.basename` for POSIX paths: everything after the last slash. -/
def basename (cs : List Char) : List Char :=
  (cs.reverse.takeWhile (fun c => c != '/')).reverse

/-- Model of `os.path.dirname` for POSIX paths: take the text up to and including the
last slash, then strip trailing slashes unless the result consists only of
slashes (this is the algorithm of `posixpath.dirname`). -/
def dirname (cs : List Char) : List Char :=
  let head := (cs.reverse.dropWhile (fun c => c != '/')).reverse
  if head.isEmpty || head.all (fun c => c == '/') then head
  else (head.reverse.dropWhile (fun c => c == '/')).reverse

/-- Python `str.endswith`: the argument is a suffix of the string.  Matches
the empty-remainder case as Python does (a string equal to the suffix ends
with it). -/
def pyEndsWith (pat s : List Char) : Bool :=
  pat.reverse.isPrefixOf s.reverse

/-- Fuel-indexed worker for `replaceAll`; the fuel is an upper bound on the
length of the remaining input, so the `0, s => s` branch is never reached when
called through `replaceAll`. -/
def replaceAllAux (pat rep : List Char) : Nat → List Char → List Char
  | 0, s => s
  | _ + 1, [] => []
  | fuel + 1, c :: rest =>
    if pat ≠ [] ∧ pat.isPrefixOf (c :: rest) then
      rep ++ replaceAllAux pat rep fuel ((c :: rest).drop pat.length)
    else
      c :: replaceAllAux pat rep fuel rest

/-- Python `str.replace(pat, rep)` for a nonempty pattern: replace every
non-overlapping occurrence of `pat` by `rep`, scanning left to right. -/
def replaceAll (pat rep s : List Char) : List Char :=
  replaceAllAux pat rep s.length s

/-- Generic model of `re.search` for a pattern anchored at line starts by `^`
in `re.MULTILINE` mode: try every position of the text in order, keeping
track of whether the position is a line start (position zero, or the position
directly after a newline); at line starts apply the local matcher `hit` to the
remaining suffix.  The result of the first successful `hit` is returned. -/
def scanFirst {α : Type} (hit : List Char → Option α) : List Char → Bool → Option α
  | [], _ => none
  | c :: rest, atStart =>
    match (if atStart then hit (c :: rest) else none) with
    | some v => some v
    | none => scanFirst hit rest (c == '\n')

/-- Local matcher for `^X:\s*(\d+)`: the suffix at a line start must begin
with `X:`, then after the maximal run of whitespace (the greedy `\s*`; a
shorter run cannot help, since it would leave a whitespace character where a
digit is required) there must be at least one decimal digit. -/
def xFieldHit : List Char → Option Unit
  | c1 :: c2 :: rest =>
    if c1 = 'X' ∧ c2 = ':' then
      match rest.dropWhile pyIsSpace with
      | c :: _ => if c.isDigit then some () else none
      | [] => none
    else none
  | _ => none

/-- Function `is_valid_abc_file` from `scripts/update_data.py`: the file text must
match `^X:\s*(\d+)` in multi-line mode; a read error (`none`) is caught and
reported as invalid. -/
def is_valid_abc_file (content : Option String) : Bool :=
  match content with
  | some s => (scanFirst xFieldHit s.data true).isSome
  | none => false

/-- Scanner for the unanchored pattern `T:(.*?)$` in multi-line mode: find
the leftmost occurrence of `T:` anywhere in the text (not only at line
starts) and return the remaining text after it; the captured group is then
the rest of that line. -/
def findTField : List Char → Option (List Char)
  | [] => none
  | c :: rest =>
    if c = 'T' ∧ rest.head? = some ':' then some rest.tail
    else findTField rest

/-- The fallback title of `extract_title`:
`os.path.basename(path).replace(".abc", "")`, which removes every occurrence
of the substring `.abc` from the filename, not only a trailing extension. -/
def abcTitleFallback (path : List Char) : List Char :=
  replaceAll ".abc".data [] (basename path)

/-- Function `extract_title` from `scripts/update_data.py`.  The title is the stripped
group of the first match of `T:(.*?)$` (multi-line, case sensitive, not
anchored to line starts); if the pattern does not occur, or the read raised
an exception (`none`), the filename-derived fallback is returned.  The script
passes the full path; since `basename` only looks at the text after the last
slash, passing the root-relative path is equivalent. -/
def extract_title (path : String) (content : Option String) : String :=
  match content with
  | some s =>
    match findTField s.data with
    | some r => ⟨pyStrip (takeToEol r)⟩
    | none => ⟨abcTitleFallback path.data⟩
  | none => ⟨abcTitleFallback path.data⟩

/-- Local matcher for `^#\s+(.*?)$`: the suffix at a line start must begin
with `#` followed by at least one whitespace character; the greedy `\s+` then
consumes the maximal whitespace run (which may cross newlines, since `\s`
matches a newline), after which the lazy group captures up to the next line
end.  The group always succeeds, so no backtracking into `\s+` occurs. -/
def docHeadingHit : List Char → Option (List Char)
  | c1 :: d :: rest =>
    if c1 = '#' ∧ pyIsSpace d = true then
      some (takeToEol ((d :: rest).dropWhile pyIsSpace))
    else none
  | _ => none

/-- Python `str.title()` restricted to ASCII: a cased character directly
after a cased character is lowercased, any other cased character is
uppercased. -/
def pyTitleAux : List Char → Bool → List Char
  | [], _ => []
  | c :: rest, prevCased =>
    if c.isAlpha then (if prevCased then c.toLower else c.toUpper) :: pyTitleAux rest true
    else c :: pyTitleAux rest false

/-- Python `str.title()`. -/
def pyTitleCase (cs : List Char) : List Char :=
  pyTitleAux cs false

/-- The fallback title of `extract_doc_title`:
`basename(path).replace(".md", "").replace("_", " ").title()`. -/
def docTitleFallback (path : List Char) : List Char :=
  pyTitleCase (replaceAll "_".data " ".data (replaceAll ".md".data [] (basename path)))

/-- Function `extract_doc_title` from `scripts/update_data.py`: the stripped group of
the first match of `^#\s+(.*?)$` in multi-line mode, with the filename-derived
fallback when the pattern does not occur or the read raised an exception. -/
def extract_doc_title (path : String) (content : Option String) : String :=
  match content with
  | some s =>
    match scanFirst docHeadingHit s.data true with
    | some r => ⟨pyStrip r⟩
    | none => ⟨docTitleFallback path.data⟩
  | none => ⟨docTitleFallback path.data⟩

/-- One file produced by the directory walk: the path relative to the content
root (POSIX separators) and the result of reading it (`none` models a read
error). -/
structure SrcFile where
  relPath : String
  content : Option String
  deriving DecidableEq

/-- One record of the notation catalog. -/
structure AbcEntry where
  name : String
  file : String
  category : String
  deriving DecidableEq

/-- One record of the documentation catalog. -/
structure DocEntry where
  name : String
  file : String
  deriving DecidableEq

/-- The emitted `file` field: the relative path with every backslash
replaced by a forward slash, as in the replace call of the script. -/
def emittedPath (f : SrcFile) : String :=
  ⟨replaceAll "\\".data "/".data f.relPath.data⟩

/-- The category computation of `generate_abc_file_list`:
`os.path.dirname(rel_path)`, with the literal `General` substituted when the
directory part equals `.` (note: `os.path.dirname` of a bare filename is the
empty string, never `.`, so on paths produced by `os.path.relpath` the
substitution never fires). -/
def categoryOf (relPath : List Char) : String :=
  let c := dirname relPath
  if c = ".".data then "General" else ⟨c⟩

/-- The per-file step of `generate_abc_file_list`: filename must end with
`.abc` (case sensitive), the content must pass `is_valid_abc_file`, and the
record is assembled from `extract_title`, the emitted relative path, and the
category. -/
def abcRecord (f : SrcFile) : Option AbcEntry :=
  if pyEndsWith ".abc".data (basename f.relPath.data) then
    if is_valid_abc_file f.content then
      some { name := extract_title f.relPath f.content
             file := emittedPath f
             category := categoryOf f.relPath.data }
    else none
  else none

/-- Strict lexicographic comparison of character lists by code point, the
order Python uses to compare strings. -/
def strLtB : List Char → List Char → Bool
  | _, [] => false
  | [], _ :: _ => true
  | a :: as, b :: bs => if a < b then true else if b < a then false else strLtB as bs

/-- The sort key comparison of the notation catalog:
`(x["category"], x["name"])` tuples compared lexicographically (non-strict,
as needed by a stable sort). -/
def abcKeyLe (a b : AbcEntry) : Bool :=
  strLtB a.category.data b.category.data ||
    (a.category == b.category && !(strLtB b.name.data a.name.data))

/-- The sort key comparison of the documentation catalog: `x["name"]`. -/
def docKeyLe (a b : DocEntry) : Bool :=
  !(strLtB b.name.data a.name.data)

/-- Stable insertion: the new element goes after every element that compares
less than or equal to it, so elements with equal keys keep their relative
order. -/
def insertSorted {α : Type} (le : α → α → Bool) (x : α) : List α → List α
  | [] => [x]
  | y :: ys => if le y x then y :: insertSorted le x ys else x :: y :: ys

/-- Stable sort by repeated insertion, processing the input left to right:
the model of `list.sort(key=...)`, which is a stable ascending sort (any two
stable sorts under the same total preorder agree on their output). -/
def stableSort {α : Type} (le : α → α → Bool) (xs : List α) : List α :=
  xs.foldl (fun acc x => insertSorted le x acc) []

/-- The unsorted record list of `generate_abc_file_list`, in walk order. -/
def abcRecords (files : List SrcFile) : List AbcEntry :=
  files.filterMap abcRecord

/-- Function `generate_abc_file_list` from `scripts/update_data.py`, as the map
from the walked files to the sorted catalog. -/
def generate_abc_file_list (files : List SrcFile) : List AbcEntry :=
  stableSort abcKeyLe (abcRecords files)

/-- The per-file step of `generate_docs_file_list`: filename must end with
`.md` (case sensitive); there is no validity gate. -/
def docRecord (f : SrcFile) : Option DocEntry :=
  if pyEndsWith ".md".data (basename f.relPath.data) then
    some { name := extract_doc_title f.relPath f.content
           file := emittedPath f }
  else none

/-- The unsorted record list of `generate_docs_file_list`, in walk order. -/
def docRecords (files : List SrcFile) : List DocEntry :=
  files.filterMap docRecord

/-- Function `generate_docs_file_list` from `scripts/update_data.py`. -/
def generate_docs_file_list (files : List SrcFile) : List DocEntry :=
  stableSort docKeyLe (docRecords files)

/-- The sort key of a notation entry, as a pair for statements about
distinctness of keys. -/
def abcKey (e : AbcEntry) : String × String :=
  (e.category, e.name)

/-- A position in the text at which `^` matches in `re.MULTILINE` mode,
described by the text before the position: the very start (`pre = []`, in
which case the incoming scan flag must be set) or a position directly after a
newline. -/
def lineStartOk (pre : List Char) (flag : Bool) : Prop :=
  (pre = [] ∧ flag = true) ∨ pre.getLast? = some '\n'

/-- Decomposition form of a match of `^#\s+` in multi-line mode: a line-start
`#` immediately followed by a whitespace character. -/
def hasHeadingDecomp (cs : List Char) : Prop :=
  ∃ p1 w p2, cs = p1 ++ '#' :: w :: p2 ∧ (p1 = [] ∨ p1.getLast? = some '\n') ∧ pyIsSpace w = true

/-- Lowercase hexadecimal digit, as used by `json.dumps` in `\uXXXX`
escapes. -/
def hexDigitChar (n : Nat) : Char :=
  if n < 10 then Char.ofNat (48 + n) else Char.ofNat (87 + n)

/-- Four lowercase hexadecimal digits. -/
def hex4 (n : Nat) : List Char :=
  [hexDigitChar (n / 4096 % 16), hexDigitChar (n / 256 % 16),
   hexDigitChar (n / 16 % 16), hexDigitChar (n % 16)]

/-- The escaping of one character inside a JSON string literal as performed
by `json.dumps` with its defaults (`ensure_ascii=True`): the two-character
escapes for quote, backslash and the common control characters, `\uXXXX` for
every other character outside the printable ASCII range 0x20 to 0x7e, with a
surrogate pair for code points above 0xffff. -/
def jsonEscapeChar (c : Char) : List Char :=
  if c = '"' then ['\\', '"']
  else if c = '\\' then ['\\', '\\']
  else if c = '\n' then ['\\', 'n']
  else if c = '\r' then ['\\', 'r']
  else if c = '\t' then ['\\', 't']
  else if c = '\x08' then ['\\', 'b']
  else if c = '\x0c' then ['\\', 'f']
  else if c.toNat < 32 || c.toNat > 126 then
    if c.toNat < 65536 then '\\' :: 'u' :: hex4 c.toNat
    else
      let v := c.toNat - 65536
      ('\\' :: 'u' :: hex4 (55296 + v / 1024)) ++ ('\\' :: 'u' :: hex4 (56320 + v % 1024))
  else [c]

/-- A JSON string literal for `s`, `json.dumps` style. -/
def jsonString (s : String) : List Char :=
  '"' :: ((s.data.map jsonEscapeChar).flatten ++ ['"'])

/-- A run of `n` spaces. -/
def spaces (n : Nat) : List Char :=
  List.replicate n ' '

/-- Join chunks with a separator. -/
def joinSep (sep : List Char) : List (List Char) → List Char
  | [] => []
  | [x] => x
  | x :: y :: xs => x ++ sep ++ joinSep sep (y :: xs)

/-- One notation entry as laid out by `json.dumps(file_list, indent=8)`:
an object at indent level one (8 spaces), keys in insertion order. -/
def abcEntryJson (e : AbcEntry) : List Char :=
  spaces 8 ++ ['\x7b', '\n']
    ++ spaces 16 ++ "\"name\": ".data ++ jsonString e.name ++ [',', '\n']
    ++ spaces 16 ++ "\"file\": ".data ++ jsonString e.file ++ [',', '\n']
    ++ spaces 16 ++ "\"category\": ".data ++ jsonString e.category ++ ['\n']
    ++ spaces 8 ++ ['\x7d']

/-- One documentation entry as laid out by `json.dumps(file_list, indent=8)`. -/
def docEntryJson (e : DocEntry) : List Char :=
  spaces 8 ++ ['\x7b', '\n']
    ++ spaces 16 ++ "\"name\": ".data ++ jsonString e.name ++ [',', '\n']
    ++ spaces 16 ++ "\"file\": ".data ++ jsonString e.file ++ ['\n']
    ++ spaces 8 ++ ['\x7d']

/-- Layout of `json.dumps(items, indent=8)` for a top-level list whose rendered
elements are given: `[]` for the empty list, otherwise the elements joined
by `,\n` between `[\n` and `\n]`. -/
def jsonListIndent8 (items : List (List Char)) : List Char :=
  match items with
  | [] => "[]".data
  | _ :: _ => ['[', '\n'] ++ joinSep [',', '\n'] items ++ ['\n', ']']

/-- The full text of the generated `js/data/abc-file-list.js` module, exactly
as written by `generate_abc_file_list`. -/
def abcModuleText (files : List SrcFile) : String :=
  ⟨"// Auto-generated file list - do not edit manually\nclass AbcFileList \x7b\n    static getFiles() \x7b\n        return ".data
    ++ jsonListIndent8 ((generate_abc_file_list files).map abcEntryJson)
    ++ ";\n    \x7d\n\x7d\n".data⟩

/-- The full text of the generated `js/data/docs-file-list.js` module. -/
def docsModuleText (files : List SrcFile) : String :=
  ⟨"// Auto-generated docs file list - do not edit manually\nclass DocsFileList \x7b\n    static getFiles() \x7b\n        return ".data
    ++ jsonListIndent8 ((generate_docs_file_list files).map docEntryJson)
    ++ ";\n    \x7d\n\x7d\n".data⟩

/-- Writing a file opened with mode `w`: the previous content of the file is
discarded entirely, the new content replaces it. -/
def writeFileContent (oldContent newContent : String) : String :=
  newContent

/-- One run of the notation-catalog half of the builder, seen as a transform
of the content of the output file on disk. -/
def runAbcBuild (files : List SrcFile) (disk : String) : String :=
  writeFileContent disk (abcModuleText files)

/-- One run of the documentation-catalog half of the builder. -/
def runDocsBuild (files : List SrcFile) (disk : String) : String :=
  writeFileContent disk (docsModuleText files)

/-! ## Properties of the string order -/

theorem strLtB_irrefl (s : List Char) : strLtB s s = false := by
  induction s with
  | nil => rfl
  | cons c cs ih => simp [strLtB, ih]

theorem strLtB_asymm : ∀ (s t : List Char), strLtB s t = true → strLtB t s = false
  | [], [], h => by simp [strLtB] at h
  | [], _ :: _, _ => rfl
  | _ :: _, [], h => by simp [strLtB] at h
  | a :: as, b :: bs, h => by
    simp only [strLtB] at h ⊢
    rcases lt_trichotomy a b with hab | hab | hab
    · rw [if_neg (lt_asymm hab), if_pos hab]
    · subst hab
      rw [if_neg (lt_irrefl a), if_neg (lt_irrefl a)] at h ⊢
      exact strLtB_asymm as bs h
    · rw [if_neg (lt_asymm hab), if_pos hab] at h
      exact absurd h (by simp)

theorem strLtB_eq_of_not_lt : ∀ (s t : List Char),
    strLtB s t = false → strLtB t s = false → s = t
  | [], [], _, _ => rfl
  | [], _ :: _, h1, _ => by simp [strLtB] at h1
  | _ :: _, [], _, h2 => by simp [strLtB] at h2
  | a :: as, b :: bs, h1, h2 => by
    simp only [strLtB] at h1 h2
    rcases lt_trichotomy a b with hab | hab | hab
    · rw [if_pos hab] at h1
      exact absurd h1 (by simp)
    · subst hab
      rw [if_neg (lt_irrefl a), if_neg (lt_irrefl a)] at h1 h2
      rw [strLtB_eq_of_not_lt as bs h1 h2]
    · rw [if_pos hab] at h2
      exact absurd h2 (by simp)

theorem strLtB_trans : ∀ (s t u : List Char),
    strLtB s t = true → strLtB t u = true → strLtB s u = true
  | _, [], _, h1, _ => by simp [strLtB] at h1
  | _ :: _, _ :: _, [], _, h2 => by simp [strLtB] at h2
  | [], _ :: _, _ :: _, _, _ => rfl
  | a :: as, b :: bs, c :: cs, h1, h2 => by
    simp only [strLtB] at h1 h2 ⊢
    rcases lt_trichotomy a b with hab | hab | hab
    · rcases lt_trichotomy b c with hbc | hbc | hbc
      · rw [if_pos (lt_trans hab hbc)]
      · subst hbc
        rw [if_pos hab]
      · rw [if_neg (lt_asymm hbc), if_pos hbc] at h2
        exact absurd h2 (by simp)
    · subst hab
      rw [if_neg (lt_irrefl a), if_neg (lt_irrefl a)] at h1
      rcases lt_trichotomy a c with hac | hac | hac
      · rw [if_pos hac]
      · subst hac
        rw [if_neg (lt_irrefl a), if_neg (lt_irrefl a)] at h2 ⊢
        exact strLtB_trans as bs cs h1 h2
      · rw [if_neg (lt_asymm hac), if_pos hac] at h2
        exact absurd h2 (by simp)
    · rw [if_neg (lt_asymm hab), if_pos hab] at h1
      exact absurd h1 (by simp)

/-- Transitivity of the string order in non-strict form. -/
theorem strLeB_trans {a b c : List Char} (h1 : strLtB b a = false)
    (h2 : strLtB c b = false) : strLtB c a = false := by
  rcases h3 : strLtB c a with _ | _
  · rfl
  · exfalso
    rcases h4 : strLtB a b with _ | _
    · have hab : a = b := strLtB_eq_of_not_lt a b h4 h1
      rw [hab] at h3
      rw [h3] at h2
      exact absurd h2 (by simp)
    · have h5 := strLtB_trans c a b h3 h4
      rw [h5] at h2
      exact absurd h2 (by simp)

/-- Strings with equal character lists are equal. -/
theorem string_data_eq {s t : String} (h : s.data = t.data) : s = t := by
  cases s
  cases t
  exact congrArg String.mk h

/-! ## Properties of the sort-key comparisons -/

theorem abcKeyLe_total (a b : AbcEntry) : abcKeyLe a b = true ∨ abcKeyLe b a = true := by
  unfold abcKeyLe
  rcases h1 : strLtB a.category.data b.category.data with _ | _
  · rcases h2 : strLtB b.category.data a.category.data with _ | _
    · have hcat : a.category = b.category :=
        string_data_eq (strLtB_eq_of_not_lt _ _ h1 h2)
      rcases h3 : strLtB b.name.data a.name.data with _ | _
      · left
        simp [hcat, h3]
      · right
        simp [hcat, strLtB_asymm _ _ h3]
    · right
      simp [h2]
  · left
    simp [h1]

theorem abcKeyLe_trans {a b c : AbcEntry} (h1 : abcKeyLe a b = true)
    (h2 : abcKeyLe b c = true) : abcKeyLe a c = true := by
  unfold abcKeyLe at h1 h2 ⊢
  simp only [Bool.or_eq_true, Bool.and_eq_true, beq_iff_eq, Bool.not_eq_true'] at h1 h2 ⊢
  rcases h1 with h1 | ⟨h1e, h1n⟩
  · rcases h2 with h2 | ⟨h2e, h2n⟩
    · exact Or.inl (strLtB_trans _ _ _ h1 h2)
    · left
      rw [← h2e]
      exact h1
  · rcases h2 with h2 | ⟨h2e, h2n⟩
    · left
      rw [h1e]
      exact h2
    · exact Or.inr ⟨h1e.trans h2e, strLeB_trans h1n h2n⟩

theorem abcKeyLe_key_antisymm {a b : AbcEntry} (h1 : abcKeyLe a b = true)
    (h2 : abcKeyLe b a = true) : abcKey a = abcKey b := by
  unfold abcKeyLe at h1 h2
  simp only [Bool.or_eq_true, Bool.and_eq_true, beq_iff_eq, Bool.not_eq_true'] at h1 h2
  rcases h1 with h1 | ⟨h1e, h1n⟩
  · rcases h2 with h2 | ⟨h2e, h2n⟩
    · rw [strLtB_asymm _ _ h1] at h2
      exact absurd h2 (by simp)
    · rw [h2e, strLtB_irrefl] at h1
      exact absurd h1 (by simp)
  · rcases h2 with h2 | ⟨h2e, h2n⟩
    · rw [h1e, strLtB_irrefl] at h2
      exact absurd h2 (by simp)
    · have hname : a.name = b.name := string_data_eq (strLtB_eq_of_not_lt _ _ h2n h1n)
      unfold abcKey
      rw [h1e, hname]

theorem docKeyLe_total (a b : DocEntry) : docKeyLe a b = true ∨ docKeyLe b a = true := by
  unfold docKeyLe
  rcases h : strLtB b.name.data a.name.data with _ | _
  · left
    simp [h]
  · right
    simp [strLtB_asymm _ _ h]

theorem docKeyLe_trans {a b c : DocEntry} (h1 : docKeyLe a b = true)
    (h2 : docKeyLe b c = true) : docKeyLe a c = true := by
  unfold docKeyLe at h1 h2 ⊢
  simp only [Bool.not_eq_true'] at h1 h2 ⊢
  exact strLeB_trans h1 h2

/-! ## Properties of the stable insertion sort -/

theorem insertSorted_perm {α : Type} (le : α → α → Bool) (x : α) :
    ∀ ys : List α, (insertSorted le x ys).Perm (x :: ys)
  | [] => List.Perm.refl _
  | y :: ys => by
    simp only [insertSorted]
    by_cases h : le y x = true
    · rw [if_pos h]
      exact ((insertSorted_perm le x ys).cons y).trans (List.Perm.swap x y ys)
    · rw [if_neg h]

theorem mem_insertSorted {α : Type} {le : α → α → Bool} {x z : α} {ys : List α} :
    z ∈ insertSorted le x ys ↔ z = x ∨ z ∈ ys := by
  rw [(insertSorted_perm le x ys).mem_iff, List.mem_cons]

theorem insertSorted_pairwise {α : Type} {le : α → α → Bool}
    (htot : ∀ a b, le a b = true ∨ le b a = true)
    (htrans : ∀ a b c, le a b = true → le b c = true → le a c = true) (x : α) :
    ∀ {ys : List α}, ys.Pairwise (fun a b => le a b = true) →
      (insertSorted le x ys).Pairwise (fun a b => le a b = true) := by
  intro ys
  induction ys with
  | nil =>
    intro _
    simp [insertSorted]
  | cons y ys ih =>
    intro h
    rw [List.pairwise_cons] at h
    simp only [insertSorted]
    by_cases hyx : le y x = true
    · rw [if_pos hyx, List.pairwise_cons]
      refine ⟨fun z hz => ?_, ih h.2⟩
      rcases mem_insertSorted.mp hz with rfl | hz
      · exact hyx
      · exact h.1 z hz
    · rw [if_neg hyx, List.pairwise_cons]
      have hxy : le x y = true := (htot x y).resolve_right hyx
      refine ⟨fun z hz => ?_, List.pairwise_cons.mpr h⟩
      rcases List.mem_cons.mp hz with rfl | hz
      · exact hxy
      · exact htrans x y z hxy (h.1 z hz)

theorem stableSort_foldl_perm {α : Type} (le : α → α → Bool) :
    ∀ (xs acc : List α),
      (xs.foldl (fun acc x => insertSorted le x acc) acc).Perm (acc ++ xs)
  | [], acc => by simp
  | x :: xs, acc => by
    simp only [List.foldl_cons]
    refine (stableSort_foldl_perm le xs (insertSorted le x acc)).trans ?_
    refine (List.Perm.append_right xs (insertSorted_perm le x acc)).trans ?_
    exact List.perm_middle.symm

theorem stableSort_perm {α : Type} (le : α → α → Bool) (xs : List α) :
    (stableSort le xs).Perm xs := by
  simpa using stableSort_foldl_perm le xs []

theorem mem_stableSort {α : Type} {le : α → α → Bool} {x : α} {xs : List α} :
    x ∈ stableSort le xs ↔ x ∈ xs :=
  (stableSort_perm le xs).mem_iff

theorem stableSort_foldl_pairwise {α : Type} {le : α → α → Bool}
    (htot : ∀ a b, le a b = true ∨ le b a = true)
    (htrans : ∀ a b c, le a b = true → le b c = true → le a c = true) :
    ∀ (xs acc : List α), acc.Pairwise (fun a b => le a b = true) →
      (xs.foldl (fun acc x => insertSorted le x acc) acc).Pairwise
        (fun a b => le a b = true)
  | [], _, h => h
  | x :: xs, acc, h => by
    simp only [List.foldl_cons]
    exact stableSort_foldl_pairwise htot htrans xs (insertSorted le x acc)
      (insertSorted_pairwise htot htrans x h)

theorem stableSort_pairwise {α : Type} {le : α → α → Bool}
    (htot : ∀ a b, le a b = true ∨ le b a = true)
    (htrans : ∀ a b c, le a b = true → le b c = true → le a c = true)
    (xs : List α) :
    (stableSort le xs).Pairwise (fun a b => le a b = true) :=
  stableSort_foldl_pairwise htot htrans xs [] List.Pairwise.nil


/-! ## Properties of the line-start scanner -/

theorem lineStartOk_cons {c : Char} {pre : List Char} {flag2 : Bool}
    (h : lineStartOk pre (c == '\n')) : lineStartOk (c :: pre) flag2 := by
  rcases h with ⟨hpre, hc⟩ | hlast
  · subst hpre
    right
    have hcn : c = '\n' := by simpa using hc
    simp [hcn]
  · right
    cases pre with
    | nil => simp at hlast
    | cons d pre2 =>
      rw [List.getLast?_cons_cons]
      exact hlast

theorem lineStartOk_of_cons {c : Char} {pre : List Char} {flag : Bool}
    (h : lineStartOk (c :: pre) flag) : lineStartOk pre (c == '\n') := by
  rcases h with ⟨hpre, _⟩ | hlast
  · exact absurd hpre (by simp)
  · cases pre with
    | nil =>
      left
      have hc : c = '\n' := by simpa using hlast
      exact ⟨rfl, by simp [hc]⟩
    | cons d pre2 =>
      right
      rw [List.getLast?_cons_cons] at hlast
      exact hlast

theorem scanFirst_isSome {α : Type} {hit : List Char → Option α} (hnil : hit [] = none) :
    ∀ (pre : List Char) (flag : Bool) (suf : List Char) (v : α),
      lineStartOk pre flag → hit suf = some v →
      (scanFirst hit (pre ++ suf) flag).isSome = true
  | [], flag, suf, v, hok, hhit => by
    have hflag : flag = true := by
      rcases hok with ⟨_, hf⟩ | hlast
      · exact hf
      · simp at hlast
    subst hflag
    cases suf with
    | nil =>
      rw [hnil] at hhit
      exact absurd hhit (by simp)
    | cons c rest => simp [scanFirst, hhit]
  | c :: pre2, flag, suf, v, hok, hhit => by
    have hok2 : lineStartOk pre2 (c == '\n') := lineStartOk_of_cons hok
    have ih := scanFirst_isSome hnil pre2 (c == '\n') suf v hok2 hhit
    simp only [List.cons_append, scanFirst, List.append_eq]
    cases hscr : (if flag = true then hit (c :: (pre2 ++ suf)) else none) with
    | some w => rfl
    | none => exact ih

theorem scanFirst_decomp {α : Type} {hit : List Char → Option α} :
    ∀ (cs : List Char) (flag : Bool) (v : α), scanFirst hit cs flag = some v →
      ∃ pre suf, cs = pre ++ suf ∧ lineStartOk pre flag ∧ hit suf = some v
  | [], flag, v, h => by simp [scanFirst] at h
  | c :: rest, flag, v, h => by
    simp only [scanFirst] at h
    cases hscr : (if flag = true then hit (c :: rest) else none) with
    | some w =>
      rw [hscr] at h
      have hwv : w = v := by simpa using h
      subst hwv
      have hflag : flag = true := by
        by_contra hf
        rw [if_neg hf] at hscr
        exact absurd hscr (by simp)
      rw [if_pos hflag] at hscr
      exact ⟨[], c :: rest, rfl, Or.inl ⟨rfl, hflag⟩, hscr⟩
    | none =>
      rw [hscr] at h
      obtain ⟨pre2, suf, heq, hok, hhit⟩ := scanFirst_decomp rest (c == '\n') v h
      exact ⟨c :: pre2, suf, by rw [heq, List.cons_append], lineStartOk_cons hok, hhit⟩

theorem scanFirst_first {α : Type} {hit : List Char → Option α} (hnil : hit [] = none) :
    ∀ (pre : List Char) (flag : Bool) (suf : List Char) (v : α),
      lineStartOk pre flag → hit suf = some v →
      (∀ p1 p2, pre = p1 ++ p2 → p2 ≠ [] → lineStartOk p1 flag → hit (p2 ++ suf) = none) →
      scanFirst hit (pre ++ suf) flag = some v
  | [], flag, suf, v, hok, hhit, _ => by
    have hflag : flag = true := by
      rcases hok with ⟨_, hf⟩ | hlast
      · exact hf
      · simp at hlast
    subst hflag
    cases suf with
    | nil =>
      rw [hnil] at hhit
      exact absurd hhit (by simp)
    | cons c rest => simp [scanFirst, hhit]
  | c :: pre2, flag, suf, v, hok, hhit, hfirst => by
    have hok2 : lineStartOk pre2 (c == '\n') := lineStartOk_of_cons hok
    have ih := scanFirst_first hnil pre2 (c == '\n') suf v hok2 hhit
      (fun p1 p2 hp hne hok1 =>
        hfirst (c :: p1) p2 (by rw [hp, List.cons_append]) hne (lineStartOk_cons hok1))
    have hscr : (if flag = true then hit (c :: (pre2 ++ suf)) else none) = none := by
      by_cases hf : flag = true
      · rw [if_pos hf]
        exact hfirst [] (c :: pre2) rfl (by simp) (Or.inl ⟨rfl, hf⟩)
      · rw [if_neg hf]
    simp only [List.cons_append, scanFirst, List.append_eq]
    rw [hscr]
    exact ih

/-! ## Character-class facts and dropWhile helpers -/

theorem digit_not_space {c : Char} (h : c.isDigit = true) : pyIsSpace c = false := by
  rcases h2 : pyIsSpace c with _ | _
  · rfl
  · exfalso
    simp only [pyIsSpace, Bool.or_eq_true, beq_iff_eq] at h2
    rcases h2 with ((((rfl | rfl) | rfl) | rfl) | rfl) | rfl <;> simp at h

theorem dropWhile_append_all (p : Char → Bool) :
    ∀ (ws l : List Char), ws.all p = true → (ws ++ l).dropWhile p = l.dropWhile p
  | [], _, _ => rfl
  | c :: ws, l, h => by
    simp only [List.all_cons, Bool.and_eq_true] at h
    simp only [List.cons_append, List.dropWhile_cons, h.1, if_true]
    exact dropWhile_append_all p ws l h.2

/-! ## Characterization of the identifier-field check -/

theorem xFieldHit_some_decomp {suf : List Char} {v : Unit} (h : xFieldHit suf = some v) :
    ∃ ws d rest, suf = 'X' :: ':' :: (ws ++ d :: rest) ∧
      ws.all pyIsSpace = true ∧ d.isDigit = true := by
  rcases suf with _ | ⟨c1, _ | ⟨c2, rest⟩⟩
  · exact absurd h (by simp [xFieldHit])
  · exact absurd h (by simp [xFieldHit])
  · simp only [xFieldHit] at h
    by_cases hx : c1 = 'X' ∧ c2 = ':'
    · rw [if_pos hx] at h
      obtain ⟨rfl, rfl⟩ := hx
      cases hdw : rest.dropWhile pyIsSpace with
      | nil =>
        rw [hdw] at h
        exact absurd h (by simp)
      | cons d r2 =>
        rw [hdw] at h
        have h3 : (if d.isDigit = true then some () else none) = some v := h
        by_cases hd : d.isDigit = true
        · refine ⟨rest.takeWhile pyIsSpace, d, r2, ?_, ?_, hd⟩
          · rw [← hdw, List.takeWhile_append_dropWhile]
          · rw [List.all_eq_true]
            exact fun x hx2 => List.mem_takeWhile_imp hx2
        · rw [if_neg hd] at h3
          exact absurd h3 (by simp)
    · rw [if_neg hx] at h
      exact absurd h (by simp)

theorem xFieldHit_of_decomp {ws : List Char} {d : Char} {rest : List Char}
    (hws : ws.all pyIsSpace = true) (hd : d.isDigit = true) :
    xFieldHit ('X' :: ':' :: (ws ++ d :: rest)) = some () := by
  simp only [xFieldHit]
  rw [if_pos (by simp)]
  rw [dropWhile_append_all pyIsSpace ws (d :: rest) hws]
  rw [List.dropWhile_cons, if_neg (by simp [digit_not_space hd])]
  show (if d.isDigit = true then some () else none) = some ()
  rw [if_pos hd]


/-- The structural reading of `is_valid_abc_file` on a readable file: the text
admits a decomposition exhibiting a line-start `X:` followed by a (possibly
empty) whitespace run and a decimal digit. -/
theorem is_valid_abc_file_iff (s : String) :
    is_valid_abc_file (some s) = true ↔
      ∃ pre ws d rest, s.data = pre ++ 'X' :: ':' :: (ws ++ d :: rest) ∧
        (pre = [] ∨ pre.getLast? = some '\n') ∧
        ws.all pyIsSpace = true ∧ d.isDigit = true := by
  constructor
  · intro h
    have h2 : ∃ v, scanFirst xFieldHit s.data true = some v := by
      rw [← Option.isSome_iff_exists]
      exact h
    obtain ⟨v, hv⟩ := h2
    obtain ⟨pre, suf, heq, hok, hhit⟩ := scanFirst_decomp s.data true v hv
    obtain ⟨ws, d, rest, hsuf, hws, hd⟩ := xFieldHit_some_decomp hhit
    refine ⟨pre, ws, d, rest, ?_, ?_, hws, hd⟩
    · rw [heq, hsuf]
    · rcases hok with ⟨hp, _⟩ | hl
      · exact Or.inl hp
      · exact Or.inr hl
  · rintro ⟨pre, ws, d, rest, hdecomp, hpre, hws, hd⟩
    show (scanFirst xFieldHit s.data true).isSome = true
    rw [hdecomp]
    refine scanFirst_isSome rfl pre true ('X' :: ':' :: (ws ++ d :: rest)) ()
      ?_ (xFieldHit_of_decomp hws hd)
    rcases hpre with hp | hl
    · exact Or.inl ⟨hp, by simp⟩
    · exact Or.inr hl

/-! ## Catalog membership -/

theorem abcRecord_some_elim {f : SrcFile} {e : AbcEntry} (h : abcRecord f = some e) :
    pyEndsWith ".abc".data (basename f.relPath.data) = true ∧
      is_valid_abc_file f.content = true ∧
      e = { name := extract_title f.relPath f.content
            file := emittedPath f
            category := categoryOf f.relPath.data } := by
  unfold abcRecord at h
  split_ifs at h with h1 h2
  · exact ⟨h1, h2, (Option.some_inj.mp h).symm⟩

theorem abcRecord_eq_some {f : SrcFile}
    (h1 : pyEndsWith ".abc".data (basename f.relPath.data) = true)
    (h2 : is_valid_abc_file f.content = true) :
    abcRecord f = some { name := extract_title f.relPath f.content
                         file := emittedPath f
                         category := categoryOf f.relPath.data } := by
  unfold abcRecord
  rw [if_pos h1, if_pos h2]

theorem docRecord_some_elim {f : SrcFile} {e : DocEntry} (h : docRecord f = some e) :
    pyEndsWith ".md".data (basename f.relPath.data) = true ∧
      e = { name := extract_doc_title f.relPath f.content
            file := emittedPath f } := by
  unfold docRecord at h
  split_ifs at h with h1
  · exact ⟨h1, (Option.some_inj.mp h).symm⟩

theorem mem_generate_abc {files : List SrcFile} {e : AbcEntry} :
    e ∈ generate_abc_file_list files ↔ ∃ f ∈ files, abcRecord f = some e := by
  rw [generate_abc_file_list, mem_stableSort, abcRecords, List.mem_filterMap]

theorem mem_generate_docs {files : List SrcFile} {e : DocEntry} :
    e ∈ generate_docs_file_list files ↔ ∃ f ∈ files, docRecord f = some e := by
  rw [generate_docs_file_list, mem_stableSort, docRecords, List.mem_filterMap]

/-! ## Path and suffix helpers -/

theorem pyEndsWith_iff {pat s : List Char} : pyEndsWith pat s = true ↔ pat <:+ s := by
  unfold pyEndsWith
  rw [ List.isPrefixOf_iff_prefix, List.reverse_prefix]

theorem basename_suffix (cs : List Char) : basename cs <:+ cs := by
  rw [← List.reverse_prefix]
  unfold basename
  rw [List.reverse_reverse]
  exact List.takeWhile_prefix _

theorem replaceAllAux_single (a b : Char) :
    ∀ (fuel : Nat) (l : List Char), l.length ≤ fuel →
      replaceAllAux [a] [b] fuel l = l.map (fun c => if c = a then b else c)
  | 0, l, h => by
    have hl : l = [] := List.eq_nil_of_length_eq_zero (Nat.le_zero.mp h)
    subst hl
    rfl
  | fuel + 1, [], _ => rfl
  | fuel + 1, c :: rest, h => by
    have hlen : rest.length ≤ fuel := Nat.le_of_succ_le_succ h
    simp only [replaceAllAux]
    by_cases hac : a = c
    · subst hac
      rw [if_pos ⟨by simp, by simp [List.isPrefixOf]⟩]
      rw [List.map_cons, if_pos rfl]
      show b :: replaceAllAux [a] [b] fuel rest = _
      rw [replaceAllAux_single a b fuel rest hlen]
    · rw [if_neg (by rintro ⟨-, hp⟩; simp [List.isPrefixOf] at hp; exact hac hp)]
      rw [List.map_cons, if_neg (fun h2 => hac h2.symm)]
      rw [replaceAllAux_single a b fuel rest hlen]

theorem replaceAll_single (a b : Char) (l : List Char) :
    replaceAll [a] [b] l = l.map (fun c => if c = a then b else c) :=
  replaceAllAux_single a b l.length l (le_refl _)

theorem emittedPath_data (f : SrcFile) :
    (emittedPath f).data = f.relPath.data.map (fun c => if c = '\\' then '/' else c) := by
  show replaceAll "\\".data "/".data f.relPath.data = _
  have h1 : "\\".data = ['\\'] := rfl
  have h2 : "/".data = ['/'] := rfl
  rw [h1, h2, replaceAll_single]

theorem suffix_emittedPath {pat : List Char} {f : SrcFile}
    (hmap : pat.map (fun c => if c = '\\' then '/' else c) = pat)
    (h : pat <:+ f.relPath.data) : pat <:+ (emittedPath f).data := by
  obtain ⟨t, ht⟩ := h
  rw [emittedPath_data, ← ht, List.map_append, hmap]
  exact ⟨_, rfl⟩

/-! ## Claims -/

/-- Claim C10: membership in the catalogs is gated by a case-sensitive suffix
test on the filename: every emitted notation entry has a file path ending in
the literal lowercase `.abc` and every emitted documentation entry one ending
in `.md`; `TUNE.ABC` is never catalogued, while a file named exactly `.abc`
passes the filter. -/
theorem claim_C10 :
    (∀ files : List SrcFile,
      ((generate_abc_file_list files).all
        (fun e => pyEndsWith ".abc".data e.file.data)) = true) ∧
    (∀ files : List SrcFile,
      ((generate_docs_file_list files).all
        (fun e => pyEndsWith ".md".data e.file.data)) = true) ∧
    generate_abc_file_list [⟨"TUNE.ABC", some "X:1\nT:T\n"⟩] = [] ∧
    generate_abc_file_list [⟨".abc", some "X:1\n"⟩] ≠ [] := by
  refine ⟨?_, ?_, by decide, by decide⟩
  · intro files
    rw [List.all_eq_true]
    intro e he
    obtain ⟨f, hf, hrec⟩ := mem_generate_abc.mp he
    obtain ⟨hext, _, hdef⟩ := abcRecord_some_elim hrec
    subst hdef
    rw [pyEndsWith_iff]
    show ".abc".data <:+ (emittedPath f).data
    refine suffix_emittedPath (by decide) ?_
    exact (pyEndsWith_iff.mp hext).trans (basename_suffix _)
  · intro files
    rw [List.all_eq_true]
    intro e he
    obtain ⟨f, hf, hrec⟩ := mem_generate_docs.mp he
    obtain ⟨hext, hdef⟩ := docRecord_some_elim hrec
    subst hdef
    rw [pyEndsWith_iff]
    show ".md".data <:+ (emittedPath f).data
    refine suffix_emittedPath (by decide) ?_
    exact (pyEndsWith_iff.mp hext).trans (basename_suffix _)

/-- Claim C3: a file whose name ends in `.abc` is included in the notation
catalog exactly when its text contains, at the start of some line, the
marker `X:` followed by a (possibly empty) whitespace run and a decimal
digit; a read error likewise excludes the file (inclusion requires readable
content `some s` with the decomposition).  Distinctness of the emitted path
fields identifies each catalog entry with its source file. -/
theorem claim_C3 (files : List SrcFile) (hnodup : (files.map emittedPath).Nodup)
    (f : SrcFile) (hf : f ∈ files)
    (hext : pyEndsWith ".abc".data (basename f.relPath.data) = true) :
    (∃ e ∈ generate_abc_file_list files, e.file = emittedPath f) ↔
      ∃ s, f.content = some s ∧ ∃ pre ws d rest,
        s.data = pre ++ 'X' :: ':' :: (ws ++ d :: rest) ∧
        (pre = [] ∨ pre.getLast? = some '\n') ∧
        ws.all pyIsSpace = true ∧ d.isDigit = true := by
  constructor
  · rintro ⟨e, he, hef⟩
    obtain ⟨f2, hf2, hrec⟩ := mem_generate_abc.mp he
    obtain ⟨_, hvalid2, hdef⟩ := abcRecord_some_elim hrec
    have hfeq : f2 = f := by
      refine List.inj_on_of_nodup_map hnodup hf2 hf ?_
      have h3 := hef
      rw [hdef] at h3
      exact h3
    subst hfeq
    cases hc : f2.content with
    | none =>
      rw [hc] at hvalid2
      exact absurd hvalid2 (by simp [is_valid_abc_file])
    | some s =>
      rw [hc] at hvalid2
      exact ⟨s, rfl, (is_valid_abc_file_iff s).mp hvalid2⟩
  · rintro ⟨s, hs, pre, ws, d, rest, hdec, hpre, hws, hd⟩
    have hvalid : is_valid_abc_file f.content = true := by
      rw [hs]
      exact (is_valid_abc_file_iff s).mpr ⟨pre, ws, d, rest, hdec, hpre, hws, hd⟩
    exact ⟨_, mem_generate_abc.mpr ⟨f, hf, abcRecord_eq_some hext hvalid⟩, rfl⟩

theorem claim_C3_witness :
    ∃ e ∈ generate_abc_file_list [⟨"tune.abc", some "X:1\nT:G\n"⟩],
      e.file = emittedPath ⟨"tune.abc", some "X:1\nT:G\n"⟩ :=
  (claim_C3 [⟨"tune.abc", some "X:1\nT:G\n"⟩] (by decide)
      ⟨"tune.abc", some "X:1\nT:G\n"⟩ (by decide) (by decide)).mpr
    ⟨"X:1\nT:G\n", rfl, [], [], '1', "\nT:G\n".data, by decide, Or.inl rfl,
      by decide, by decide⟩

/-- Claim C6: the notation catalog is sorted ascending by the composite key
(category, name): any earlier entry compares less than or equal to any later
entry under the lexicographic (category, name) comparison, so an entry with a
strictly smaller key always precedes one with a strictly larger key. -/
theorem claim_C6 (files : List SrcFile)
    (i j : Fin (generate_abc_file_list files).length) (hij : i < j) :
    abcKeyLe ((generate_abc_file_list files).get i)
      ((generate_abc_file_list files).get j) = true := by
  have hp := stableSort_pairwise abcKeyLe_total
    (fun a b c h1 h2 => abcKeyLe_trans h1 h2) (abcRecords files)
  exact List.pairwise_iff_get.mp hp i j hij

theorem claim_C6_witness :
    abcKeyLe
      ((generate_abc_file_list
          [⟨"b.abc", some "X:1\nT:B\n"⟩, ⟨"a/c.abc", some "X:1\nT:C\n"⟩]).get
        ⟨0, by decide⟩)
      ((generate_abc_file_list
          [⟨"b.abc", some "X:1\nT:B\n"⟩, ⟨"a/c.abc", some "X:1\nT:C\n"⟩]).get
        ⟨1, by decide⟩) = true :=
  claim_C6 [⟨"b.abc", some "X:1\nT:B\n"⟩, ⟨"a/c.abc", some "X:1\nT:C\n"⟩]
    ⟨0, by decide⟩ ⟨1, by decide⟩ (by decide)

/-- Claim C4 (a bug in the code): for the content root containing exactly
`tune.abc` with text `X:1\nT:Greensleeves\n`, the generated catalog holds the
name `Greensleeves` and the file `tune.abc` as the scenario demands, but the
category is the empty string, not `General`: `os.path.dirname` of a bare
filename is the empty string and never `.`, so the root-default branch of the
script is dead code, although its comment documents the intent that files in
the root receive the category `General`. -/
theorem claim_C4 :
    generate_abc_file_list [⟨"tune.abc", some "X:1\nT:Greensleeves\n"⟩] =
      [{ name := "Greensleeves", file := "tune.abc", category := "" }] ∧
    ({ name := "Greensleeves", file := "tune.abc", category := "" } : AbcEntry) ≠
      { name := "Greensleeves", file := "tune.abc", category := "General" } :=
  ⟨by decide, by decide⟩

/-- Claim C8: no per-file read failure propagates: on a read error the title
extractors return the filename-derived fallbacks, the validity check reports
invalid, and an unreadable file contributes nothing to the notation catalog
while the remaining files are processed exactly as without it. -/
theorem claim_C8 :
    (∀ path : String, extract_title path none = ⟨abcTitleFallback path.data⟩) ∧
    (∀ path : String, extract_doc_title path none = ⟨docTitleFallback path.data⟩) ∧
    is_valid_abc_file none = false ∧
    (∀ (pre rest : List SrcFile) (p : String),
      generate_abc_file_list (pre ++ ⟨p, none⟩ :: rest) =
        generate_abc_file_list (pre ++ rest)) := by
  refine ⟨fun path => rfl, fun path => rfl, rfl, fun pre rest p => ?_⟩
  unfold generate_abc_file_list abcRecords
  have hnone : abcRecord ⟨p, none⟩ = none := by
    simp [abcRecord, is_valid_abc_file]
  rw [List.filterMap_append, List.filterMap_append, List.filterMap_cons, hnone]

/-- Claim C9: the builder is deterministic and idempotent as a file
transform: the emitted module text depends only on the walked input files,
the write fully overwrites whatever was on disk (the prior content is
ignored), and re-running on unchanged inputs reproduces the identical bytes
for both catalog modules. -/
theorem claim_C9 (files : List SrcFile) (d1 d2 : String) :
    runAbcBuild files d1 = runAbcBuild files d2 ∧
    runDocsBuild files d1 = runDocsBuild files d2 ∧
    runAbcBuild files (runAbcBuild files d1) = runAbcBuild files d1 ∧
    runDocsBuild files (runDocsBuild files d1) = runDocsBuild files d1 ∧
    runAbcBuild files d1 = abcModuleText files ∧
    runDocsBuild files d1 = docsModuleText files :=
  ⟨rfl, rfl, rfl, rfl, rfl, rfl⟩

/-! ## The unanchored title-field scanner -/

theorem findTField_none_iff : ∀ cs : List Char,
    findTField cs = none ↔ ∀ p q, cs ≠ p ++ 'T' :: ':' :: q
  | [] => by
    constructor
    · intro _ p q h
      exact absurd h.symm (by simp)
    · intro _
      rfl
  | c :: rest => by
    simp only [findTField]
    by_cases hc : c = 'T' ∧ rest.head? = some ':'
    · rw [if_pos hc]
      constructor
      · intro h
        exact absurd h (by simp)
      · intro h
        exfalso
        obtain ⟨rfl, hh⟩ := hc
        cases rest with
        | nil => simp at hh
        | cons r2 rtail =>
          have hr2 : r2 = ':' := by simpa using hh
          subst hr2
          exact h [] rtail rfl
    · rw [if_neg hc]
      rw [findTField_none_iff rest]
      constructor
      · intro h p q hpq
        cases p with
        | nil =>
          apply hc
          rw [List.nil_append] at hpq
          injection hpq with h1 h2
          exact ⟨h1, by simp [h2]⟩
        | cons d p2 =>
          rw [List.cons_append] at hpq
          injection hpq with h1 h2
          exact h p2 q h2
      · intro h p q hpq
        exact h (c :: p) q (by rw [hpq, List.cons_append])

theorem findTField_append {pre rest : List Char}
    (h : ∀ p q, pre ≠ p ++ 'T' :: ':' :: q) :
    findTField (pre ++ 'T' :: ':' :: rest) = some rest := by
  induction pre with
  | nil =>
    rw [List.nil_append]
    simp only [findTField]
    rw [if_pos (by simp)]
    rfl
  | cons c pre2 ih =>
    rw [List.cons_append]
    simp only [findTField]
    have hcond : ¬ (c = 'T' ∧ (pre2 ++ 'T' :: ':' :: rest).head? = some ':') := by
      rintro ⟨rfl, hh⟩
      cases pre2 with
      | nil =>
        rw [List.nil_append] at hh
        simp at hh
      | cons d p3 =>
        rw [List.cons_append] at hh
        have hd : d = ':' := by
          simp at hh
          exact hh
        subst hd
        exact h [] p3 rfl
    rw [if_neg hcond]
    exact ih (fun p q hpq => h (c :: p) q (by rw [hpq, List.cons_append]))

/-! ## The document-heading scanner -/

theorem docHeadingHit_some_decomp {suf v : List Char}
    (h : docHeadingHit suf = some v) :
    ∃ w tail, suf = '#' :: w :: tail ∧ pyIsSpace w = true ∧
      v = takeToEol ((w :: tail).dropWhile pyIsSpace) := by
  rcases suf with _ | ⟨c1, _ | ⟨d, rest⟩⟩
  · exact absurd h (by simp [docHeadingHit])
  · exact absurd h (by simp [docHeadingHit])
  · simp only [docHeadingHit] at h
    by_cases hc : c1 = '#' ∧ pyIsSpace d = true
    · rw [if_pos hc] at h
      obtain ⟨rfl, hsp⟩ := hc
      exact ⟨d, rest, rfl, hsp, (Option.some_inj.mp h).symm⟩
    · rw [if_neg hc] at h
      exact absurd h (by simp)

theorem docHeadingHit_of {w : Char} {tail : List Char} (hsp : pyIsSpace w = true) :
    docHeadingHit ('#' :: w :: tail) =
      some (takeToEol ((w :: tail).dropWhile pyIsSpace)) := by
  simp only [docHeadingHit]
  rw [if_pos (by simp [hsp])]

theorem docScan_none_iff (cs : List Char) :
    scanFirst docHeadingHit cs true = none ↔ ¬ hasHeadingDecomp cs := by
  constructor
  · intro h hdec
    obtain ⟨p1, w, p2, hcs, hp1, hsp⟩ := hdec
    have hok : lineStartOk p1 true := by
      rcases hp1 with h0 | h0
      · exact Or.inl ⟨h0, rfl⟩
      · exact Or.inr h0
    have h2 := @scanFirst_isSome _ docHeadingHit rfl p1 true ('#' :: w :: p2) _
      hok (docHeadingHit_of hsp)
    rw [← hcs, h] at h2
    exact absurd h2 (by simp)
  · intro h
    cases hs : scanFirst docHeadingHit cs true with
    | none => rfl
    | some v =>
      exfalso
      obtain ⟨pre, suf, heq, hok, hhit⟩ := scanFirst_decomp cs true v hs
      obtain ⟨w, tail, hsuf, hsp, _⟩ := docHeadingHit_some_decomp hhit
      refine h ⟨pre, w, tail, ?_, ?_, hsp⟩
      · rw [heq, hsuf]
      · rcases hok with ⟨h0, _⟩ | h0
        · exact Or.inl h0
        · exact Or.inr h0

theorem docScan_first {pre : List Char} {w : Char} {tail : List Char}
    (hp1 : pre = [] ∨ pre.getLast? = some '\n') (hsp : pyIsSpace w = true)
    (hnone : ¬ hasHeadingDecomp pre) :
    scanFirst docHeadingHit (pre ++ '#' :: w :: tail) true =
      some (takeToEol ((w :: tail).dropWhile pyIsSpace)) := by
  refine scanFirst_first rfl pre true ('#' :: w :: tail) _ ?_ (docHeadingHit_of hsp) ?_
  · rcases hp1 with h0 | h0
    · exact Or.inl ⟨h0, by simp⟩
    · exact Or.inr h0
  · intro p1 p2 hp hne hok
    cases hdh : docHeadingHit (p2 ++ '#' :: w :: tail) with
    | none => rfl
    | some v =>
      exfalso
      obtain ⟨w2, tail2, hsuf, hsp2, _⟩ := docHeadingHit_some_decomp hdh
      cases p2 with
      | nil => exact hne rfl
      | cons a p3 =>
        rw [List.cons_append] at hsuf
        injection hsuf with ha htail2
        subst ha
        cases p3 with
        | nil =>
          rw [List.nil_append] at htail2
          injection htail2 with hw2 _
          rw [← hw2] at hsp2
          exact absurd hsp2 (by decide)
        | cons b p4 =>
          rw [List.cons_append] at htail2
          injection htail2 with hb _
          refine hnone ⟨p1, b, p4, ?_, ?_, ?_⟩
          · rw [hp]
          · rcases hok with ⟨h0, _⟩ | h0
            · exact Or.inl h0
            · exact Or.inr h0
          · rw [hb]
            exact hsp2

/-! ## Equality of sorted permutations -/

theorem sorted_perm_eq {α : Type} {R : α → α → Prop} :
    ∀ {l1 l2 : List α}, l1.Perm l2 → l1.Pairwise R → l2.Pairwise R →
      (∀ a ∈ l1, ∀ b ∈ l1, R a b → R b a → a = b) → l1 = l2 := by
  intro l1
  induction l1 with
  | nil =>
    intro l2 hp _ _ _
    exact (hp.symm.eq_nil).symm
  | cons a t1 ih =>
    intro l2 hp hs1 hs2 hanti
    have ha2 : a ∈ l2 := hp.mem_iff.mp (List.mem_cons_self a t1)
    cases l2 with
    | nil => exact absurd ha2 (by simp)
    | cons b t2 =>
      by_cases hab : a = b
      · subst hab
        have hp2 : t1.Perm t2 := hp.cons_inv
        rw [ih hp2 (List.pairwise_cons.mp hs1).2 (List.pairwise_cons.mp hs2).2
          (fun x hx y hy hr1 hr2 =>
            hanti x (List.mem_cons_of_mem a hx) y (List.mem_cons_of_mem a hy) hr1 hr2)]
      · have ha : a ∈ t2 := by
          rcases List.mem_cons.mp ha2 with h0 | h0
          · exact absurd h0 hab
          · exact h0
        have hb1 : b ∈ a :: t1 := hp.mem_iff.mpr (List.mem_cons_self b t2)
        have hb : b ∈ t1 := by
          rcases List.mem_cons.mp hb1 with h0 | h0
          · exact absurd h0.symm hab
          · exact h0
        have hR1 : R a b := (List.pairwise_cons.mp hs1).1 b hb
        have hR2 : R b a := (List.pairwise_cons.mp hs2).1 a ha
        exact absurd (hanti a (List.mem_cons_self a t1) b (List.mem_cons_of_mem a hb) hR1 hR2)
          hab

/-- Claim C1 fails as stated: for a file nested two directories deep the
category is the full relative directory path `a/b`, not the immediate parent
name `b`; and for a file at the content root the category is the empty
string, not `General`. -/
theorem claim_C1_counterexample :
    (generate_abc_file_list
        [⟨"a/b/c.abc", some "X:1\nT:t\n"⟩, ⟨"tune.abc", some "X:1\nT:g\n"⟩]).map
      (fun e => e.category) = ["", "a/b"] ∧
    ("" : String) ≠ "General" ∧ ("a/b" : String) ≠ "b" :=
  ⟨by decide, by decide, by decide⟩

/-- Helper for claim C1: under distinctness of the emitted path fields, a
catalog entry with the path field of `f` is the record built from `f`
itself, so its category is the category computation applied to the path of
its own source file. -/
theorem catalog_entry_category {files : List SrcFile} {f : SrcFile} {e : AbcEntry}
    (hnodup : (files.map emittedPath).Nodup) (hf : f ∈ files)
    (he : e ∈ generate_abc_file_list files) (hef : e.file = emittedPath f) :
    e.category = categoryOf f.relPath.data := by
  obtain ⟨f2, hf2, hrec⟩ := mem_generate_abc.mp he
  obtain ⟨_, _, hdef⟩ := abcRecord_some_elim hrec
  have hfeq : f2 = f := by
    refine List.inj_on_of_nodup_map hnodup hf2 hf ?_
    have h3 := hef
    rw [hdef] at h3
    exact h3
  subst hfeq
  rw [hdef]

/-- Helper for claim C1: the directory part of a relative path without
slashes is the empty list. -/
theorem dirname_no_slash {p : List Char} (hp : ∀ c ∈ p, c ≠ '/') : dirname p = [] := by
  have h1 : p.reverse.dropWhile (fun c => c != '/') = [] := by
    rw [List.dropWhile_eq_nil_iff]
    intro x hx
    simp [hp x (List.mem_reverse.mp hx)]
  simp [dirname, h1]

/-- Claim C1 (amended): identifying each catalog entry with its own source
file through the emitted path field (distinct across the walk, as on any
real file tree), the entry derives its category from the full relative
directory path of that very file: it equals `dirname` of the path of the
file the entry was built from whenever that directory part is not literally
`.` (which `os.path.relpath` never produces), and for a file lying directly
in the content root (a relative path without slashes) the category is the
empty string, so the `General` default of the script never applies. -/
theorem claim_C1_amended :
    (∀ files : List SrcFile, (files.map emittedPath).Nodup →
      ∀ f ∈ files, ∀ e ∈ generate_abc_file_list files, e.file = emittedPath f →
      dirname f.relPath.data ≠ ".".data →
      e.category = ⟨dirname f.relPath.data⟩) ∧
    (∀ files : List SrcFile, (files.map emittedPath).Nodup →
      ∀ f ∈ files, ∀ e ∈ generate_abc_file_list files, e.file = emittedPath f →
      (∀ c ∈ f.relPath.data, c ≠ '/') →
      e.category = "") := by
  have hmain : ∀ files : List SrcFile, (files.map emittedPath).Nodup →
      ∀ f ∈ files, ∀ e ∈ generate_abc_file_list files, e.file = emittedPath f →
      dirname f.relPath.data ≠ ".".data →
      e.category = ⟨dirname f.relPath.data⟩ := by
    intro files hnodup f hf e he hef hnd
    rw [catalog_entry_category hnodup hf he hef]
    unfold categoryOf
    rw [if_neg hnd]
  refine ⟨hmain, ?_⟩
  intro files hnodup f hf e he hef hslash
  have hdir : dirname f.relPath.data = [] := dirname_no_slash hslash
  have hnd : dirname f.relPath.data ≠ ".".data := by
    rw [hdir]
    decide
  rw [hmain files hnodup f hf e he hef hnd, hdir]

theorem claim_C1_witness :
    ({ name := "t", file := "a/b/c.abc", category := "a/b" } : AbcEntry).category =
      ⟨dirname ("a/b/c.abc" : String).data⟩ ∧
    ({ name := "g", file := "tune.abc", category := "" } : AbcEntry).category = "" :=
  ⟨claim_C1_amended.1 [⟨"a/b/c.abc", some "X:1\nT:t\n"⟩] (by decide)
      ⟨"a/b/c.abc", some "X:1\nT:t\n"⟩ (by decide)
      { name := "t", file := "a/b/c.abc", category := "a/b" } (by decide)
      (by decide) (by decide),
    claim_C1_amended.2 [⟨"tune.abc", some "X:1\nT:g\n"⟩] (by decide)
      ⟨"tune.abc", some "X:1\nT:g\n"⟩ (by decide)
      { name := "g", file := "tune.abc", category := "" } (by decide)
      (by decide) (by decide)⟩

/-- Claim C2 fails as stated: the title pattern is not anchored to line
starts, so `CT:NotATitle` yields the title `NotATitle` although no line
starts with the marker (the claim predicts the fallback `x`); and the
fallback removes every occurrence of `.abc` from the filename, so
`a.abcb.abc` yields `ab` instead of the extension-stripped `a.abcb`. -/
theorem claim_C2_counterexample :
    (extract_title "x.abc" (some "CT:NotATitle\n") = "NotATitle" ∧
      ("NotATitle" : String) ≠ "x") ∧
    (extract_title "a.abcb.abc" (some "no marker") = "ab" ∧
      ("ab" : String) ≠ "a.abcb") :=
  ⟨⟨by decide, by decide⟩, ⟨by decide, by decide⟩⟩

/-- Claim C2 (amended): the extractor returns the trimmed remainder of the
line starting at the first occurrence of `T:` anywhere in the text (the
pattern is unanchored: mid-line occurrences count and the leftmost one wins,
case sensitively and line by line); when `T:` does not occur at all, it
returns the basename with every occurrence of the substring `.abc` removed
(which equals stripping the extension exactly when `.abc` occurs only as the
trailing extension). -/
theorem claim_C2_amended :
    (∀ (path : String) (pre rest : List Char),
      (∀ p q, pre ≠ p ++ 'T' :: ':' :: q) →
      extract_title path (some ⟨pre ++ 'T' :: ':' :: rest⟩) =
        ⟨pyStrip (takeToEol rest)⟩) ∧
    (∀ (path : String) (cs : List Char),
      (∀ p q, cs ≠ p ++ 'T' :: ':' :: q) →
      extract_title path (some ⟨cs⟩) =
        ⟨replaceAll ".abc".data [] (basename path.data)⟩) := by
  constructor
  · intro path pre rest h
    have h2 : findTField (String.mk (pre ++ 'T' :: ':' :: rest)).data = some rest :=
      findTField_append h
    simp only [extract_title, h2]
  · intro path cs h
    have h2 : findTField (String.mk cs).data = none := (findTField_none_iff cs).mpr h
    simp only [extract_title, h2]
    rfl

theorem claim_C2_witness :
    extract_title "x.abc" (some ⟨"ab\n".data ++ 'T' :: ':' :: " Hello \n".data⟩) =
      ⟨pyStrip (takeToEol " Hello \n".data)⟩ ∧
    extract_title "y.abc" (some ⟨"music".data⟩) =
      ⟨replaceAll ".abc".data [] (basename "y.abc".data)⟩ :=
  ⟨claim_C2_amended.1 "x.abc" "ab\n".data " Hello \n".data
      ((findTField_none_iff "ab\n".data).mp (by decide)),
    claim_C2_amended.2 "y.abc" "music".data
      ((findTField_none_iff "music".data).mp (by decide))⟩

/-- Claim C5 fails as stated: when two distinct files yield equal
(category, name) sort keys, the stable sort keeps them in enumeration order,
so two permutations of the same input set produce different catalogs. -/
theorem claim_C5_counterexample :
    ([(⟨"a.abc", some "X:1\nT:Same\n"⟩ : SrcFile), ⟨"b.abc", some "X:1\nT:Same\n"⟩].Perm
        [⟨"b.abc", some "X:1\nT:Same\n"⟩, ⟨"a.abc", some "X:1\nT:Same\n"⟩]) ∧
    generate_abc_file_list
        [⟨"a.abc", some "X:1\nT:Same\n"⟩, ⟨"b.abc", some "X:1\nT:Same\n"⟩] ≠
      generate_abc_file_list
        [⟨"b.abc", some "X:1\nT:Same\n"⟩, ⟨"a.abc", some "X:1\nT:Same\n"⟩] :=
  ⟨List.Perm.swap (⟨"b.abc", some "X:1\nT:Same\n"⟩ : SrcFile)
      (⟨"a.abc", some "X:1\nT:Same\n"⟩ : SrcFile) [],
    by decide⟩

/-- Claim C5 (amended): when all records carry pairwise distinct
(category, name) sort keys, the emitted catalog is fully determined by the
keys: any permutation of the directory-walk enumeration produces the
identical ordered catalog.  With duplicate keys the sort is stable, so ties
follow the enumeration order. -/
theorem claim_C5_amended (files1 files2 : List SrcFile) (hperm : files1.Perm files2)
    (hkeys : ((abcRecords files1).map abcKey).Nodup) :
    generate_abc_file_list files1 = generate_abc_file_list files2 := by
  have hrec : (abcRecords files1).Perm (abcRecords files2) := hperm.filterMap abcRecord
  have hcat1 : (generate_abc_file_list files1).Perm (abcRecords files1) :=
    stableSort_perm _ _
  have hcat2 : (generate_abc_file_list files2).Perm (abcRecords files2) :=
    stableSort_perm _ _
  have hp12 : (generate_abc_file_list files1).Perm (generate_abc_file_list files2) :=
    hcat1.trans (hrec.trans hcat2.symm)
  have hkeys1 : ((generate_abc_file_list files1).map abcKey).Nodup :=
    ((hcat1.map abcKey).symm).nodup hkeys
  refine sorted_perm_eq (R := fun a b => abcKeyLe a b = true) hp12 ?_ ?_ ?_
  · exact stableSort_pairwise abcKeyLe_total (fun a b c h1 h2 => abcKeyLe_trans h1 h2) _
  · exact stableSort_pairwise abcKeyLe_total (fun a b c h1 h2 => abcKeyLe_trans h1 h2) _
  · intro x hx y hy h1 h2
    exact List.inj_on_of_nodup_map hkeys1 hx hy (abcKeyLe_key_antisymm h1 h2)

theorem claim_C5_witness :
    generate_abc_file_list [⟨"b.abc", some "X:1\nT:B\n"⟩, ⟨"a.abc", some "X:1\nT:A\n"⟩] =
      generate_abc_file_list [⟨"a.abc", some "X:1\nT:A\n"⟩, ⟨"b.abc", some "X:1\nT:B\n"⟩] :=
  claim_C5_amended [⟨"b.abc", some "X:1\nT:B\n"⟩, ⟨"a.abc", some "X:1\nT:A\n"⟩]
    [⟨"a.abc", some "X:1\nT:A\n"⟩, ⟨"b.abc", some "X:1\nT:B\n"⟩]
    (List.Perm.swap (⟨"a.abc", some "X:1\nT:A\n"⟩ : SrcFile)
      (⟨"b.abc", some "X:1\nT:B\n"⟩ : SrcFile) [])
    (by decide)

/-- Claim C7 fails as stated: the whitespace after a line-start `#` may cross
a line break, so `#` on a line of its own followed by `foo` yields the title
`foo` (the claim predicts either the fallback `X` or the empty remainder of
the `#` line); and the fallback removes every occurrence of `.md` from the
filename, so `a.mdx.md` yields `Ax` instead of the extension-stripped
`A.Mdx`. -/
theorem claim_C7_counterexample :
    (extract_doc_title "x.md" (some "#\nfoo") = "foo" ∧
      ("foo" : String) ≠ "X" ∧ ("foo" : String) ≠ "") ∧
    (extract_doc_title "a.mdx.md" (some "") = "Ax" ∧ ("Ax" : String) ≠ "A.Mdx") :=
  ⟨⟨by decide, by decide, by decide⟩, ⟨by decide, by decide⟩⟩

/-- Claim C7 (amended): at the first line-start `#` immediately followed by a
whitespace character, the extractor skips the maximal whitespace run after
the `#` (which may span line breaks) and returns the following text up to the
next line end, trimmed; when no line-start `#` is followed by whitespace, it
returns the basename with every occurrence of the substring `.md` removed,
underscores replaced by spaces, and title-cased. -/
theorem claim_C7_amended :
    (∀ (path : String) (pre : List Char) (w : Char) (tail : List Char),
      (pre = [] ∨ pre.getLast? = some '\n') → pyIsSpace w = true →
      ¬ hasHeadingDecomp pre →
      extract_doc_title path (some ⟨pre ++ '#' :: w :: tail⟩) =
        ⟨pyStrip (takeToEol ((w :: tail).dropWhile pyIsSpace))⟩) ∧
    (∀ (path : String) (cs : List Char), ¬ hasHeadingDecomp cs →
      extract_doc_title path (some ⟨cs⟩) =
        ⟨pyTitleCase (replaceAll "_".data " ".data
          (replaceAll ".md".data [] (basename path.data)))⟩) := by
  constructor
  · intro path pre w tail hp1 hsp hnone
    have h2 : scanFirst docHeadingHit (String.mk (pre ++ '#' :: w :: tail)).data true =
        some (takeToEol ((w :: tail).dropWhile pyIsSpace)) :=
      docScan_first hp1 hsp hnone
    simp only [extract_doc_title, h2]
  · intro path cs h
    have h2 : scanFirst docHeadingHit (String.mk cs).data true = none :=
      (docScan_none_iff cs).mpr h
    simp only [extract_doc_title, h2]
    rfl

theorem claim_C7_witness :
    extract_doc_title "g.md" (some ⟨"intro\n".data ++ '#' :: ' ' :: "Guide\nrest".data⟩) =
      ⟨pyStrip (takeToEol ((' ' :: "Guide\nrest".data).dropWhile pyIsSpace))⟩ ∧
    extract_doc_title "setup_notes.md" (some ⟨"no heading here".data⟩) =
      ⟨pyTitleCase (replaceAll "_".data " ".data
        (replaceAll ".md".data [] (basename "setup_notes.md".data)))⟩ :=
  ⟨claim_C7_amended.1 "g.md" "intro\n".data ' ' "Guide\nrest".data (Or.inr (by decide))
      (by decide) ((docScan_none_iff "intro\n".data).mp (by decide)),
    claim_C7_amended.2 "setup_notes.md" "no heading here".data
      ((docScan_none_iff "no heading here".data).mp (by decide))⟩

end UpdateData
